import Mathlib

/-!
Verification of the id-match-magic identity-verification app.

The app has two halves:

* `src/src/components/IdVerificationForm.tsx` — field normalization and
  comparison (`normalizeText`, `normalizeDate`, `normalizePhone`,
  `compareFields`, `compareDates`, `comparePhones`) and the overall
  verdict aggregation in `handleVerify`.
* the document-upload component (`cleanOCRText`, `extractDataFromText`) —
  OCR text cleanup and rule-based field extraction.

JavaScript strings are modelled as lists of characters (`Str`); a value
of type `string | undefined` is modelled as `Option Str`.  Regex-based
scans are modelled by hand-rolled recognizers that follow the concrete
patterns of the source, with left-to-right scanning and greedy matching.
-/

abbrev Str := List Char

/-- Coerce a Lean string literal to the model type. -/
def strL (s : String) : Str := s.data

/-- The ASCII characters matched by the JavaScript regex class `\s`. -/
def isJsWs (c : Char) : Bool :=
  c == ' ' || c == '\t' || c == '\n' || c == '\r' || c == '\x0b' || c == '\x0c'

/-- JavaScript regex `\w`: `[A-Za-z0-9_]` (used for `\b` word boundaries). -/
def isWordChar (c : Char) : Bool := c.isAlpha || c.isDigit || c == '_'

/-- ASCII fragment of JavaScript `String.prototype.toLowerCase`. -/
def toLowerChar (c : Char) : Char :=
  if c.isUpper then Char.ofNat (c.toNat + 32) else c

def toLowerStr (s : Str) : Str := s.map toLowerChar

/-- `needle` occurs at the start of `haystack`. -/
def startsWithStr : Str → Str → Bool
  | [], _ => true
  | _ :: _, [] => false
  | a :: as, b :: bs => a == b && startsWithStr as bs

/-- JavaScript `haystack.includes(needle)`; note `x.includes("")` is `true`. -/
def isSubstr : Str → Str → Bool
  | needle, [] => needle.isEmpty
  | needle, c :: rest => startsWithStr needle (c :: rest) || isSubstr needle rest

/-- `normalizeText` (IdVerificationForm.tsx:62-64):
`text.toLowerCase().replace(/[^a-z0-9]/g, '')`. -/
def normalizeText (text : Str) : Str :=
  (toLowerStr text).filter (fun c => c.isLower || c.isDigit)

/-- `normalizeDate` (IdVerificationForm.tsx:66-74): strip `[^\d]`; the
8-digit branch of the source returns `cleaned` unchanged, like the
fall-through. -/
def normalizeDate (date : Str) : Str :=
  let cleaned := date.filter Char.isDigit
  if cleaned.length == 8 then cleaned else cleaned

/-- `normalizePhone` (IdVerificationForm.tsx:76-78): strip `[^\d]`. -/
def normalizePhone (phone : Str) : Str := phone.filter Char.isDigit

/-- `str.includes(' ')`. -/
def hasSpaceChar (s : Str) : Bool := s.any (fun c => c == ' ')

/-- `compareFields` (IdVerificationForm.tsx:80-94).  The guard
`if (!extracted || !entered) return false` treats both `undefined` and
the empty string as falsy. -/
def compareFields (extracted : Option Str) (entered : Str) : Bool :=
  match extracted with
  | none => false
  | some ex =>
    if ex.isEmpty || entered.isEmpty then false
    else if hasSpaceChar ex || hasSpaceChar entered then
      isSubstr (normalizeText entered) (normalizeText ex)
        || isSubstr (normalizeText ex) (normalizeText entered)
        || decide (normalizeText ex = normalizeText entered)
    else decide (normalizeText ex = normalizeText entered)

/-- `compareDates` (IdVerificationForm.tsx:96-103). -/
def compareDates (extracted : Option Str) (entered : Str) : Bool :=
  match extracted with
  | none => false
  | some ex =>
    if ex.isEmpty || entered.isEmpty then false
    else decide (normalizeDate ex = normalizeDate entered)

/-- `comparePhones` (IdVerificationForm.tsx:105-114). -/
def comparePhones (extracted : Option Str) (entered : Str) : Bool :=
  match extracted with
  | none => false
  | some ex =>
    if ex.isEmpty || entered.isEmpty then false
    else
      isSubstr (normalizePhone entered) (normalizePhone ex)
        || isSubstr (normalizePhone ex) (normalizePhone entered)
        || decide (normalizePhone ex = normalizePhone entered)

/-- The four verified form fields. -/
inductive FieldKind
  | name
  | dateOfBirth
  | idNumber
  | phoneNumber
  deriving DecidableEq

/-- Which comparator `handleVerify` (IdVerificationForm.tsx:122-126)
applies to each field. -/
def compareField : FieldKind → Option Str → Str → Bool
  | FieldKind.name => compareFields
  | FieldKind.dateOfBirth => compareDates
  | FieldKind.idNumber => compareFields
  | FieldKind.phoneNumber => comparePhones

structure FormData where
  name : Str
  dateOfBirth : Str
  idNumber : Str
  phoneNumber : Str

structure ExtractedData where
  name : Option Str
  dateOfBirth : Option Str
  idNumber : Option Str
  phoneNumber : Option Str

structure VerificationResults where
  name : Bool
  dateOfBirth : Bool
  idNumber : Bool
  phoneNumber : Bool
  overall : Bool

/-- The `results` object literal of `handleVerify` (IdVerificationForm.tsx:122-128),
with `overall` initialized to `false`. -/
def initialResults (e : ExtractedData) (f : FormData) : VerificationResults :=
  ⟨compareFields e.name f.name,
   compareDates e.dateOfBirth f.dateOfBirth,
   compareFields e.idNumber f.idNumber,
   comparePhones e.phoneNumber f.phoneNumber,
   false⟩

/-- `Object.values(results)` in insertion order. -/
def resultsValues (r : VerificationResults) : List Bool :=
  [r.name, r.dateOfBirth, r.idNumber, r.phoneNumber, r.overall]

/-- `Object.values(results).filter((match, index) => index < 4 && match).length`
(IdVerificationForm.tsx:131-133). -/
def matchCount (r : VerificationResults) : Nat :=
  (((resultsValues r).enum).filter (fun p => decide (p.1 < 4) && p.2)).length

/-- `results.overall = matchCount >= 3` (IdVerificationForm.tsx:135). -/
def aggregateOverall (r : VerificationResults) : VerificationResults :=
  ⟨r.name, r.dateOfBirth, r.idNumber, r.phoneNumber, decide (3 ≤ matchCount r)⟩

/-- The pure part of `handleVerify`: per-field comparison then aggregation. -/
def handleVerify (e : ExtractedData) (f : FormData) : VerificationResults :=
  aggregateOverall (initialResults e f)

/-- Number of `true` entries in a list of booleans. -/
def countTrue (l : List Bool) : Nat := (l.filter id).length

/-!
## OCR text cleanup (`cleanOCRText`, src/unnamed/part_001:27-37)
-/

/-- `replace(/\s+/g, ' ')`: each maximal whitespace run becomes one space. -/
def collapseWS : Str → Str
  | [] => []
  | [c] => if isJsWs c then [' '] else [c]
  | a :: b :: rest =>
    if isJsWs a && isJsWs b then collapseWS (b :: rest)
    else (if isJsWs a then ' ' else a) :: collapseWS (b :: rest)

/-- `replace(/[|]/g, 'I')`. -/
def fixPipe (c : Char) : Char := if c == '|' then 'I' else c

/-- `replace(/[0O]/g, '0')`. -/
def fixZero (c : Char) : Char := if c == '0' || c == 'O' then '0' else c

/-- After a leading newline, `\s*\n` matches greedily: the engine takes
whitespace up to the last newline of the maximal whitespace run.
Returns the rest of the input after that newline, or `none` when
`\n\s*\n` does not match at this position. -/
def nnTail (r : Str) : Option Str :=
  let run := r.takeWhile isJsWs
  match run.reverse.findIdx? (fun c => c == '\n') with
  | none => none
  | some k => some (r.drop (run.length - k))

/-- `replace(/\n\s*\n/g, '\n')`, fuelled by the input length. -/
def replaceNNAux : Nat → Str → Str
  | 0, s => s
  | _ + 1, [] => []
  | fuel + 1, c :: rest =>
    if c == '\n' then
      match nnTail rest with
      | some rest2 => '\n' :: replaceNNAux fuel rest2
      | none => c :: replaceNNAux fuel rest
    else c :: replaceNNAux fuel rest

def replaceNN (s : Str) : Str := replaceNNAux s.length s

/-- JavaScript `String.prototype.trim` (whitespace from both ends). -/
def trimWS (s : Str) : Str :=
  ((s.dropWhile isJsWs).reverse.dropWhile isJsWs).reverse

/-- `cleanOCRText` (part_001:27-37): collapse whitespace runs to single
spaces, fix the `|`→`I` and `[0O]`→`0` OCR artifacts, collapse
`\n\s*\n` runs, and trim. -/
def cleanOCRText (text : Str) : Str :=
  trimWS (replaceNN (((collapseWS text).map fixPipe).map fixZero))

/-- JavaScript `text.split('\n')` (empty pieces kept). -/
def splitOnNl : Str → List Str
  | [] => [[]]
  | c :: rest =>
    if c == '\n' then [] :: splitOnNl rest
    else
      match splitOnNl rest with
      | h :: t => (c :: h) :: t
      | [] => [[c]]

/-- `cleanedText.split('\n').map(line => line.trim()).filter(line => line.length > 2)`
(part_001:42): the line-sequence view used by the name pass. -/
def linesOf (s : Str) : List Str :=
  ((splitOnNl s).map trimWS).filter (fun l => decide (2 < l.length))

/-- `cleanedText.replace(/\n/g, ' ')` (part_001:200). -/
def fullTextOf (s : Str) : Str := s.map (fun c => if c == '\n' then ' ' else c)

/-!
## Regex scanning (`extractDataFromText`, src/unnamed/part_001:39-216)
-/

/-- `\b` holds before the current position, given the previous character. -/
def boundaryBefore (prev : Option Char) : Bool :=
  match prev with
  | none => true
  | some c => !isWordChar c

/-- `\b` holds after a match that ends right before `rest`. -/
def boundaryAfter (rest : Str) : Bool :=
  match rest with
  | [] => true
  | c :: _ => !isWordChar c

/-- Exactly `n` characters of class `p`; returns them and the rest. -/
def parseClassN (p : Char → Bool) : Nat → Str → Option (Str × Str)
  | 0, s => some ([], s)
  | _ + 1, [] => none
  | n + 1, c :: rest =>
    if p c then (parseClassN p n rest).map (fun pr => (c :: pr.1, pr.2)) else none

/-- One optional character of class `p` (regex `p?`), greedy.  In every
pattern below the optional class is disjoint from what follows, so no
backtracking is needed. -/
def parseOptClass (p : Char → Bool) (s : Str) : Str × Str :=
  match s with
  | c :: rest => if p c then ([c], rest) else ([], s)
  | [] => ([], s)

/-- Greedy `\d{1,2}`.  In the date patterns the shorter alternative can
never rescue a failed match (the next required character is a separator,
never a digit), so taking the maximal run is faithful. -/
def parseD12 (s : Str) : Option (Str × Str) :=
  match s with
  | a :: rest =>
    if a.isDigit then
      match rest with
      | b :: rest2 => if b.isDigit then some ([a, b], rest2) else some ([a], rest)
      | [] => some ([a], [])
    else none
  | [] => none

/-- Last character of `m`, falling back to `d` when `m` is empty. -/
def lastCharOr (m : Str) (d : Option Char) : Option Char :=
  match m.getLast? with
  | some c => some c
  | none => d

/-- `String.prototype.matchAll` driver: try the matcher at every position
from left to right, jumping over matches and tracking the previous
character for `\b`.  `tryAt prev s` returns capture group 1 and the rest
of the input after the full match. -/
def scanAll (tryAt : Option Char → Str → Option (Str × Str)) :
    Nat → Option Char → Str → List Str
  | 0, _, _ => []
  | _ + 1, _, [] => []
  | fuel + 1, prev, c :: rest =>
    match tryAt prev (c :: rest) with
    | some (m, r) => m :: scanAll tryAt fuel (lastCharOr m (some c)) r
    | none => scanAll tryAt fuel (some c) rest

/-- `/\b(\d{4}\s?\d{4}\s?\d{4})\b/g` (part_001:64) at one position. -/
def tryAadhaar1At (prev : Option Char) (s : Str) : Option (Str × Str) :=
  if boundaryBefore prev then
    match parseClassN Char.isDigit 4 s with
    | some (d1, r1) =>
      let o1 := parseOptClass isJsWs r1
      match parseClassN Char.isDigit 4 o1.2 with
      | some (d2, r2) =>
        let o2 := parseOptClass isJsWs r2
        match parseClassN Char.isDigit 4 o2.2 with
        | some (d3, r3) =>
          if boundaryAfter r3 then some (d1 ++ o1.1 ++ d2 ++ o2.1 ++ d3, r3) else none
        | none => none
      | none => none
    | none => none
  else none

/-- `/\b(\d{12})\b/g` (part_001:65) at one position. -/
def tryAadhaar2At (prev : Option Char) (s : Str) : Option (Str × Str) :=
  if boundaryBefore prev then
    match parseClassN Char.isDigit 12 s with
    | some (d, r) => if boundaryAfter r then some (d, r) else none
    | none => none
  else none

/-- `match[1].replace(/\s/g, '')` (part_001:108). -/
def stripWs (s : Str) : Str := s.filter (fun c => !isJsWs c)

/-- The validation at part_001:109: `aadhaar.length === 12 &&
/^\d{12}$/.test(aadhaar)` (on a 12-character string the regex test is
the all-digits test). -/
def aadhaarOk (a : Str) : Bool := a.length == 12 && a.all Char.isDigit

/-- The Aadhaar loop (part_001:103-116): both patterns in order, first
candidate whose space-stripped form passes validation wins. -/
def extractIdNumber (cleanedText : Str) : Option Str :=
  ((scanAll tryAadhaar1At (cleanedText.length + 1) none cleanedText
      ++ scanAll tryAadhaar2At (cleanedText.length + 1) none cleanedText).map stripWs).find?
    aadhaarOk

/-- The regex class `[6-9]`. -/
def isSixToNine (c : Char) : Bool := decide ('6' ≤ c) && decide (c ≤ '9')

/-- The regex class `[\s\-]`. -/
def isWsDash (c : Char) : Bool := isJsWs c || c == '-'

/-- `/\b([6-9]\d{9})\b/g` (part_001:93) at one position. -/
def tryPhone1At (prev : Option Char) (s : Str) : Option (Str × Str) :=
  if boundaryBefore prev then
    match s with
    | c :: rest =>
      if isSixToNine c then
        match parseClassN Char.isDigit 9 rest with
        | some (ds, r) => if boundaryAfter r then some (c :: ds, r) else none
        | none => none
      else none
    | [] => none
  else none

/-- `/\+91[\s\-]?([6-9]\d{9})/g` (part_001:95) at one position; the
capture group excludes the prefix and the pattern has no `\b`. -/
def tryPhone2At (_ : Option Char) (s : Str) : Option (Str × Str) :=
  match s with
  | '+' :: '9' :: '1' :: r1 =>
    let o := parseOptClass isWsDash r1
    match o.2 with
    | c :: rest =>
      if isSixToNine c then
        match parseClassN Char.isDigit 9 rest with
        | some (ds, r) => some (c :: ds, r)
        | none => none
      else none
    | [] => none
  | _ => none

/-- `/\b([6-9]\d{4}[\s\-]?\d{5})\b/g` (part_001:97) at one position. -/
def tryPhone3At (prev : Option Char) (s : Str) : Option (Str × Str) :=
  if boundaryBefore prev then
    match s with
    | c :: rest =>
      if isSixToNine c then
        match parseClassN Char.isDigit 4 rest with
        | some (d1, r1) =>
          let o := parseOptClass isWsDash r1
          match parseClassN Char.isDigit 5 o.2 with
          | some (d2, r2) =>
            if boundaryAfter r2 then some (c :: d1 ++ o.1 ++ d2, r2) else none
          | none => none
        | none => none
      else none
    | [] => none
  else none

/-- `/\b(\d{10})\b/g` (part_001:99) at one position. -/
def tryPhone4At (prev : Option Char) (s : Str) : Option (Str × Str) :=
  if boundaryBefore prev then
    match parseClassN Char.isDigit 10 s with
    | some (d, r) => if boundaryAfter r then some (d, r) else none
    | none => none
  else none

/-- `match[1].replace(/[\s\-]/g, '')` (part_001:123). -/
def stripWsDash (s : Str) : Str := s.filter (fun c => !isWsDash c)

/-- The validation at part_001:124: `phone.length === 10 &&
/^[6-9]\d{9}$/.test(phone)`. -/
def phoneOk (p : Str) : Bool :=
  p.length == 10 &&
    (match p with
     | c :: rest => isSixToNine c && rest.length == 9 && rest.all Char.isDigit
     | [] => false)

/-- The phone loop (part_001:118-131): four patterns in order, first
candidate whose stripped form passes validation wins. -/
def extractPhone (cleanedText : Str) : Option Str :=
  ((scanAll tryPhone1At (cleanedText.length + 1) none cleanedText
      ++ scanAll tryPhone2At (cleanedText.length + 1) none cleanedText
      ++ scanAll tryPhone3At (cleanedText.length + 1) none cleanedText
      ++ scanAll tryPhone4At (cleanedText.length + 1) none cleanedText).map stripWsDash).find?
    phoneOk

/-- `/\b(\d{1,2}X\d{1,2}X\d{4})\b/g` with separator `X` at one position
(`X = '/'` for part_001:81, `X = '-'` for part_001:83). -/
def tryDateAt (sep : Char) (prev : Option Char) (s : Str) : Option (Str × Str) :=
  if boundaryBefore prev then
    match parseD12 s with
    | some (d1, r1) =>
      match r1 with
      | c1 :: r2 =>
        if c1 == sep then
          match parseD12 r2 with
          | some (d2, r3) =>
            match r3 with
            | c2 :: r4 =>
              if c2 == sep then
                match parseClassN Char.isDigit 4 r4 with
                | some (y, r5) =>
                  if boundaryAfter r5 then some (d1 ++ c1 :: (d2 ++ c2 :: y), r5) else none
                | none => none
              else none
            | [] => none
          | none => none
        else none
      | [] => none
    | none => none
  else none

/-- `parseInt` on a candidate (leading-digit parse; `NaN` is `none`). -/
def parseIntJS (s : Str) : Option Nat :=
  match s.takeWhile Char.isDigit with
  | [] => none
  | ds => some (ds.foldl (fun acc c => 10 * acc + (c.toNat - '0'.toNat)) 0)

/-- `dateStr.split(/[\/\-]/)`. -/
def splitSlashDash : Str → List Str
  | [] => [[]]
  | c :: rest =>
    if c == '/' || c == '-' then [] :: splitSlashDash rest
    else
      match splitSlashDash rest with
      | h :: t => (c :: h) :: t
      | [] => [[c]]

/-- The date validation (part_001:139-157): separator form needs three
parts and a year 1900-2010; a bare 4-character candidate is a year. -/
def dateOk (cand : Str) : Bool :=
  if cand.any (fun c => c == '/') || cand.any (fun c => c == '-') then
    let parts := splitSlashDash cand
    parts.length == 3 &&
      (match parseIntJS (parts.getD 2 []) with
       | some y => decide (1900 ≤ y) && decide (y ≤ 2010)
       | none => false)
  else if cand.length == 4 then
    match parseIntJS cand with
    | some y => decide (1900 ≤ y) && decide (y ≤ 2010)
    | none => false
  else false

/-- The date-of-birth loop (part_001:133-160).  The first two patterns
are global; `patterns.dateOfBirth[2]` (part_001:85) lacks the `g` flag,
so `String.prototype.matchAll` throws a `TypeError` as soon as it is
reached: reaching the third pattern aborts `extractDataFromText`, and
the year-only fallback pattern is unreachable. -/
def extractDOB (cleanedText : Str) : Except Unit (Option Str) :=
  match (scanAll (tryDateAt '/') (cleanedText.length + 1) none cleanedText).find? dateOk with
  | some d => Except.ok (some d)
  | none =>
    match (scanAll (tryDateAt '-') (cleanedText.length + 1) none cleanedText).find? dateOk with
    | some d => Except.ok (some d)
    | none => Except.error ()

/-!
## Name extraction (src/unnamed/part_001:47-58 and 163-212)
-/

/-- `[A-Z][a-z]{m,}` with `m = minLow` (greedy, maximal lowercase run).
Returns the word and the rest. -/
def parseProperWord (minLow : Nat) (s : Str) : Option (Str × Str) :=
  match s with
  | c :: rest =>
    if c.isUpper then
      let low := rest.takeWhile Char.isLower
      if decide (minLow ≤ low.length) then some (c :: low, rest.dropWhile Char.isLower)
      else none
    else none
  | [] => none

/-- `\b([A-Z][a-z]{m,}\s[A-Z][a-z]{m,}(?:\s[A-Z][a-z]{m,})?)\b` at one
position, `m = minLow`: `m = 1` gives `patterns.name[2]` (part_001:75),
`m = 2` gives the full-text fallback pattern (part_001:203).  The
optional third word (handled by `tryThird`) is greedy and is dropped
again when the trailing word boundary fails, as in the backtracking
regex engine; shortening a maximal lowercase run can never rescue a
match, so runs are committed. -/
def tryThird (minLow : Nat) (two : Str) (r3 : Str) : Option (Str × Str) :=
  match r3 with
  | c2 :: r4 =>
    if isJsWs c2 then
      match parseProperWord minLow r4 with
      | some (w3, r5) =>
        if boundaryAfter r5 then some (two ++ c2 :: w3, r5)
        else if boundaryAfter r3 then some (two, r3)
        else none
      | none => if boundaryAfter r3 then some (two, r3) else none
    else if boundaryAfter r3 then some (two, r3) else none
  | [] => some (two, [])

def tryPairAt (minLow : Nat) (prev : Option Char) (s : Str) : Option (Str × Str) :=
  if boundaryBefore prev then
    match parseProperWord minLow s with
    | some (w1, r1) =>
      match r1 with
      | c1 :: r2 =>
        if isJsWs c1 then
          match parseProperWord minLow r2 with
          | some (w2, r3) => tryThird minLow (w1 ++ c1 :: w2) r3
          | none => none
        else none
      | [] => none
    | none => none
  else none

/-- Further `(?:\s[A-Z][a-z]+)` groups, as many as the input provides;
succeeds only when the input is consumed exactly (the `$` anchor).
Fuelled by the input length (each step consumes at least two
characters). -/
def parseTailWords : Nat → Str → Option (List Str)
  | _, [] => some []
  | 0, _ :: _ => none
  | fuel + 1, c :: rest =>
    if isJsWs c then
      match parseProperWord 1 rest with
      | some (w, r) => (parseTailWords fuel r).map (fun ws => w :: ws)
      | none => none
    else none

/-- `/^[A-Z][a-z]+(?:\s[A-Z][a-z]+){1,3}$/` — both `patterns.name[0]`
(part_001:71) and the validation regex (part_001:185): the whole string
is 2-4 proper-case words separated by single whitespace characters. -/
def testProperName (s : Str) : Bool :=
  match parseProperWord 1 s with
  | some (_, r) =>
    match parseTailWords r.length r with
    | some ws => decide (1 ≤ ws.length) && decide (ws.length ≤ 3)
    | none => false
  | none => false

/-- Case-insensitive character comparison (the `/i` flag). -/
def eqCI (a b : Char) : Bool := toLowerChar a == toLowerChar b

/-- `(?:name|naam)` under `/i`, alternatives in order. -/
def stripNameKey (s : Str) : Option Str :=
  match s with
  | c1 :: c2 :: c3 :: c4 :: rest =>
    if eqCI c1 'n' && eqCI c2 'a' && eqCI c3 'm' && eqCI c4 'e' then some rest
    else if eqCI c1 'n' && eqCI c2 'a' && eqCI c3 'a' && eqCI c4 'm' then some rest
    else none
  | _ => none

/-- `[A-Z][a-z]+` under `/i`: a letter followed by at least one more
letter (maximal letter run). -/
def parseWordCI (s : Str) : Option (Str × Str) :=
  match s with
  | c :: rest =>
    if c.isAlpha then
      let run := rest.takeWhile Char.isAlpha
      if run.isEmpty then none else some (c :: run, rest.dropWhile Char.isAlpha)
    else none
  | [] => none

/-- Up to `k` further `(?:\s[A-Z][a-z]+)` groups under `/i`, greedy;
returns the consumed characters (separators included) and the rest. -/
def parseExtrasCI : Nat → Str → Str × Str
  | 0, s => ([], s)
  | k + 1, s =>
    match s with
    | c :: rest =>
      if isJsWs c then
        match parseWordCI rest with
        | some (w, r) =>
          let pr := parseExtrasCI k r
          (c :: (w ++ pr.1), pr.2)
        | none => ([], s)
      else ([], s)
    | [] => ([], s)

/-- `/(?:name|naam)[\s:]+([A-Z][a-z]+(?:\s[A-Z][a-z]+){1,3})/i`
(part_001:73) at one position; returns capture group 1.  The pattern has
no `\b`, so the `prev` character is ignored. -/
def tryNameKeyAt (_ : Option Char) (s : Str) : Option (Str × Str) :=
  match stripNameKey s with
  | some r1 =>
    let run := r1.takeWhile (fun c => isJsWs c || c == ':')
    if run.isEmpty then none
    else
      match parseWordCI (r1.dropWhile (fun c => isJsWs c || c == ':')) with
      | some (w1, r3) =>
        let ex := parseExtrasCI 3 r3
        if ex.1.isEmpty then none else some (w1 ++ ex.1, ex.2)
      | none => none
  | none => none

/-- The header/footer phrases skipped by the name pass (part_001:48-58). -/
def skipNames : List Str :=
  [strL "government of india", strL "unique identification authority",
   strL "aadhaar", strL "aadhar", strL "identity card",
   strL "permanent account number", strL "pan card",
   strL "driving license", strL "voter id"]

/-- `skipNames.some(skip => lower.includes(skip))`. -/
def mentionsSkipName (lower : Str) : Bool :=
  skipNames.any (fun sk => isSubstr sk lower)

/-- The per-candidate validation (part_001:184-189): length in `[4,35]`,
the proper-case regex, and no header phrase. -/
def nameOk (cand : Str) : Bool :=
  decide (4 ≤ cand.length) && decide (cand.length ≤ 35) && testProperName cand
    && !mentionsSkipName (toLowerStr cand)

/-- `line.match(pattern)` for the three `patterns.name` entries
(part_001:69-76), in order (`patterns.name[0]` is anchored, so it
matches exactly when the whole line passes `testProperName`). -/
def lineNameCandidates (line : Str) : List Str :=
  ((if testProperName line then some line else none) ::
    (scanAll tryNameKeyAt (line.length + 1) none line).head? ::
      [(scanAll (tryPairAt 1) (line.length + 1) none line).head?]).filterMap id

/-- The per-line name pass body (part_001:163-196): skip header lines,
lines containing digits and lines of unsuitable length; otherwise try
the three patterns in order, trimming each capture and validating it. -/
def extractNameFromLine (line : Str) : Option Str :=
  if mentionsSkipName (toLowerStr line) then none
  else if line.any Char.isDigit then none
  else if decide (line.length < 4) || decide (40 < line.length) then none
  else ((lineNameCandidates line).map trimWS).find? nameOk

/-- The loop over lines: first line that yields a validated name. -/
def extractNameFromLines : List Str → Option Str
  | [] => none
  | l :: ls =>
    match extractNameFromLine l with
    | some n => some n
    | none => extractNameFromLines ls

/-- The fallback validation (part_001:205-207): not a header phrase and
length in `[4,35]`. -/
def fallbackNameOk (m : Str) : Bool :=
  !mentionsSkipName (toLowerStr m) && decide (4 ≤ m.length) && decide (m.length ≤ 35)

/-- The full-text fallback (part_001:198-212):
`fullText.match(/\b([A-Z][a-z]{2,}\s[A-Z][a-z]{2,}(?:\s[A-Z][a-z]{2,})?)\b/g)`,
first match that passes the validation. -/
def extractNameFallback (fullText : Str) : Option Str :=
  (scanAll (tryPairAt 2) (fullText.length + 1) none fullText).find? fallbackNameOk

/-- `extractDataFromText` (part_001:39-216).  Field passes run in source
order (Aadhaar number, phone, date of birth, name); the date pass throws
as soon as its first two patterns find no acceptable date (see
`extractDOB`), modelled with `Except`, in which case the later name pass
never runs and nothing is returned. -/
def extractDataFromText (text : Str) : Except Unit ExtractedData :=
  let cleanedText := cleanOCRText text
  let lines := linesOf cleanedText
  let idNumber := extractIdNumber cleanedText
  let phoneNumber := extractPhone cleanedText
  match extractDOB cleanedText with
  | Except.error e => Except.error e
  | Except.ok dateOfBirth =>
    let name :=
      match extractNameFromLines lines with
      | some n => some n
      | none => extractNameFallback (fullTextOf cleanedText)
    Except.ok ⟨name, dateOfBirth, idNumber, phoneNumber⟩

/-- One word of the shape the specification ascribes to extracted names:
an uppercase letter followed by at least one lowercase letter. -/
def isNameWord (w : Str) : Bool :=
  match w with
  | c :: rest => c.isUpper && !rest.isEmpty && rest.all Char.isLower
  | [] => false

/-- The specification shape for an extracted name: 2 to 4 space-separated
words, each an uppercase letter followed by lowercase letters. -/
def claimNameShape (s : Str) : Prop :=
  ∃ (w : Str) (ws : List Str), s = w ++ (ws.map (fun v => ' ' :: v)).flatten ∧ isNameWord w = true ∧
    (∀ v ∈ ws, isNameWord v = true) ∧ 1 ≤ ws.length ∧ ws.length ≤ 3

/-- A word produced by `parseProperWord m`: an uppercase letter and at
least `m` lowercase letters. -/
def properWordMin (m : Nat) (w : Str) : Prop :=
  ∃ u low, w = u :: low ∧ u.isUpper = true ∧ low.all Char.isLower = true ∧ m ≤ low.length

/-!
## Helper lemmas
-/

theorem isEmpty_false_of_ne_nil {l : Str} (h : l ≠ []) : l.isEmpty = false := by
  cases l with
  | nil => exact absurd rfl h
  | cons a t => rfl

theorem decide_eq_symm (x y : Str) : decide (x = y) = decide (y = x) := by
  rw [decide_eq_decide]
  exact eq_comm

theorem isSubstr_nil_left (h : Str) : isSubstr [] h = true := by
  cases h with
  | nil => rfl
  | cons c t => simp [isSubstr, startsWithStr]

theorem matchCount_eq (r : VerificationResults) :
    matchCount r = countTrue [r.name, r.dateOfBirth, r.idNumber, r.phoneNumber] := by
  obtain ⟨n, d, i, p, o⟩ := r
  cases n <;> cases d <;> cases i <;> cases p <;> cases o <;> rfl

/-!
## C2: overall verdict aggregation
-/

/-- C2: for every assignment of the four per-field flags the aggregated
`overall` flag is true iff at least 3 of the four flags are true
(equivalently, the count of true flags is 3 or 4), and the `overall`
computed by `handleVerify` is that same pure function of its four
per-field results. -/
theorem overall_iff_three_of_four :
    (∀ n d i p : Bool,
      ((aggregateOverall ⟨n, d, i, p, false⟩).overall = true ↔
        3 ≤ countTrue [n, d, i, p])) ∧
    ∀ e f, (handleVerify e f).overall = true ↔
      3 ≤ countTrue [(handleVerify e f).name, (handleVerify e f).dateOfBirth,
        (handleVerify e f).idNumber, (handleVerify e f).phoneNumber] := by
  constructor
  · intro n d i p
    cases n <;> cases d <;> cases i <;> cases p <;> decide
  · intro e f
    show (aggregateOverall (initialResults e f)).overall = true ↔ _
    rw [show (aggregateOverall (initialResults e f)).overall
        = decide (3 ≤ matchCount (initialResults e f)) from rfl]
    rw [matchCount_eq]
    simp [aggregateOverall, handleVerify]

/-!
## C4: date comparator is digit-string equality
-/

/-- C4: for non-empty inputs the date comparator succeeds exactly when
the two strings agree after every non-digit character is removed. -/
theorem compareDates_digits_iff (ex en : Str) (hex : ex ≠ []) (hen : en ≠ []) :
    compareDates (some ex) en = true ↔
      ex.filter Char.isDigit = en.filter Char.isDigit := by
  simp [compareDates, isEmpty_false_of_ne_nil hex, isEmpty_false_of_ne_nil hen,
    normalizeDate]

/-- Witness for C4, at the claim's own example: `"01/02/2000"` versus
`"02/01/2000"` digit-strip to different strings, so the comparator
rejects the pair. -/
theorem compareDates_digits_witness :
    compareDates (some (strL "01/02/2000")) (strL "02/01/2000") = false := by
  have h := compareDates_digits_iff (strL "01/02/2000") (strL "02/01/2000")
    (by decide) (by decide)
  revert h
  decide

/-!
## C6: absent or empty operands never match
-/

/-- C6: for every field, comparing an absent extracted value with
anything, or any extracted value with the empty entered string, is
`false`. -/
theorem compare_absent_or_empty_false (f : FieldKind) (x : Str) :
    compareField f none x = false ∧ compareField f (some x) [] = false := by
  cases f <;>
    exact ⟨rfl, by simp [compareField, compareFields, compareDates, comparePhones]⟩

/-!
## C7: the generic text comparator is symmetric
-/

/-- C7: `compareFields`, the comparator used for both generic text
fields (name and ID number), is symmetric in its two strings. -/
theorem compareFields_symm (a b : Str) :
    compareFields (some a) b = compareFields (some b) a := by
  show (if a.isEmpty || b.isEmpty then false else _)
      = (if b.isEmpty || a.isEmpty then false else _)
  cases hea : a.isEmpty <;> cases heb : b.isEmpty <;> simp only [Bool.or_true,
    Bool.true_or, Bool.or_false, Bool.false_or, if_true, if_false]
  cases hsa : hasSpaceChar a <;> cases hsb : hasSpaceChar b <;>
    simp only [Bool.or_true, Bool.true_or, Bool.or_false, Bool.false_or,
      if_true, if_false]
  · exact decide_eq_symm _ _
  · cases s1 : isSubstr (normalizeText b) (normalizeText a) <;>
      cases s2 : isSubstr (normalizeText a) (normalizeText b) <;>
      simp [s1, s2, decide_eq_symm (normalizeText a) (normalizeText b)]
  · cases s1 : isSubstr (normalizeText b) (normalizeText a) <;>
      cases s2 : isSubstr (normalizeText a) (normalizeText b) <;>
      simp [s1, s2, decide_eq_symm (normalizeText a) (normalizeText b)]
  · cases s1 : isSubstr (normalizeText b) (normalizeText a) <;>
      cases s2 : isSubstr (normalizeText a) (normalizeText b) <;>
      simp [s1, s2, decide_eq_symm (normalizeText a) (normalizeText b)]

/-!
## C1: generic text comparison is gated on a space character
-/

/-- C1 counterexample: with both raw strings non-empty and neither
containing a space, one normalized string is a proper substring of the
other, yet the comparator rejects the pair — substring tolerance only
applies when a raw string contains a space. -/
theorem compareFields_claim_counterexample :
    compareFields (some (strL "Ravi-Kumar")) (strL "Ravi") = false ∧
      isSubstr (normalizeText (strL "Ravi")) (normalizeText (strL "Ravi-Kumar")) = true := by
  constructor
  · decide
  · decide

/-- C1 as amended: for non-empty inputs, when at least one RAW string
contains a space the comparator succeeds iff the normalized strings are
equal or one contains the other; when neither raw string contains a
space it succeeds iff the normalized strings are exactly equal. -/
theorem compareFields_space_gated (ex en : Str) (hex : ex ≠ []) (hen : en ≠ []) :
    compareFields (some ex) en = true ↔
      (((hasSpaceChar ex || hasSpaceChar en) = true) ∧
        (isSubstr (normalizeText en) (normalizeText ex) = true
          ∨ isSubstr (normalizeText ex) (normalizeText en) = true
          ∨ normalizeText ex = normalizeText en))
      ∨ (((hasSpaceChar ex || hasSpaceChar en) = false) ∧
          normalizeText ex = normalizeText en) := by
  cases hs : hasSpaceChar ex || hasSpaceChar en <;>
    simp [compareFields, isEmpty_false_of_ne_nil hex, isEmpty_false_of_ne_nil hen, hs,
      or_assoc]

/-- Witness for C1's amended claim at the specification's Scenario B:
extracted `"Ravi Kumar"` against entered `"ravi kumar sharma"` matches
(the extracted normalization is a substring of the entered one). -/
theorem compareFields_space_gated_witness :
    compareFields (some (strL "Ravi Kumar")) (strL "ravi kumar sharma") = true := by
  have h := compareFields_space_gated (strL "Ravi Kumar") (strL "ravi kumar sharma")
    (by decide) (by decide)
  revert h
  decide

/-!
## C5: malformed entered phone values
-/

/-- C5 counterexample: a non-empty extracted phone against a non-empty
entered value with no digits compares as `true`, not `false` — the
digit-stripped entered string is empty and `includes("")` holds. -/
theorem comparePhones_claim_counterexample :
    comparePhones (some (strL "12345")) (strL "xyz") = true := by
  decide

/-- C5 as amended: the comparators are total, but a malformed entered
phone value does not compare as non-matching: for every non-empty
extracted value and every non-empty entered value containing no digit,
the phone comparator returns `true`, because the empty digit-stripped
entered string is a substring of every string. -/
theorem comparePhones_digitless_entered_true (ex en : Str) (hex : ex ≠ [])
    (hen : en ≠ []) (hnd : en.all (fun c => !c.isDigit) = true) :
    comparePhones (some ex) en = true := by
  have hnorm : normalizePhone en = [] := by
    rw [normalizePhone, List.filter_eq_nil_iff]
    intro a ha
    have := List.all_eq_true.mp hnd a ha
    simpa using this
  simp [comparePhones, isEmpty_false_of_ne_nil hex, isEmpty_false_of_ne_nil hen,
    hnorm, isSubstr_nil_left]

/-- Witness for C5's amended claim: extracted `"9876543210"`, entered
`"abc"` (no digits) — the comparator returns `true`. -/
theorem comparePhones_digitless_entered_witness :
    comparePhones (some (strL "9876543210")) (strL "abc") = true :=
  comparePhones_digitless_entered_true (strL "9876543210") (strL "abc")
    (by decide) (by decide) (by decide)

/-!
## C3: whitespace collapsing destroys line structure
-/

theorem collapseWS_space :
    ∀ (s : Str), ∀ c ∈ collapseWS s, isJsWs c = true → c = ' ' := by
  intro s
  induction s with
  | nil => intro c hc; simp [collapseWS] at hc
  | cons a t ih =>
    cases t with
    | nil =>
      intro c hc hw
      by_cases ha : isJsWs a = true
      · simp [collapseWS, ha] at hc
        exact hc
      · simp [collapseWS, ha] at hc
        subst hc
        exact absurd hw ha
    | cons b t2 =>
      intro c hc hw
      by_cases hab : (isJsWs a && isJsWs b) = true
      · rw [show collapseWS (a :: b :: t2) = collapseWS (b :: t2) by
          simp [collapseWS, hab]] at hc
        exact ih c hc hw
      · rw [show collapseWS (a :: b :: t2)
            = (if isJsWs a then ' ' else a) :: collapseWS (b :: t2) by
          simp only [collapseWS, if_neg hab]] at hc
        rcases List.mem_cons.mp hc with hc1 | hc2
        · by_cases ha : isJsWs a = true
          · simpa [ha] using hc1
          · rw [if_neg ha] at hc1
            subst hc1
            exact absurd hw ha
        · exact ih c hc2 hw

theorem fixChars_space (a : Char) (h : isJsWs (fixZero (fixPipe a)) = true) :
    fixZero (fixPipe a) = a ∧ isJsWs a = true := by
  by_cases h1 : a = '|'
  · subst h1
    exact absurd h (by decide)
  · have hp : fixPipe a = a := by simp [fixPipe, h1]
    rw [hp] at h ⊢
    by_cases h2 : a = '0'
    · subst h2
      exact absurd h (by decide)
    · by_cases h3 : a = 'O'
      · subst h3
        exact absurd h (by decide)
      · have hz : fixZero a = a := by simp [fixZero, h2, h3]
        rw [hz] at h ⊢
        exact ⟨rfl, h⟩

theorem cleanStage_space (t : Str) :
    ∀ c ∈ ((collapseWS t).map fixPipe).map fixZero, isJsWs c = true → c = ' ' := by
  intro c hc hw
  rw [List.map_map, List.mem_map] at hc
  obtain ⟨a, ha, hac⟩ := hc
  have hfix : fixZero (fixPipe a) = a ∧ isJsWs a = true := by
    apply fixChars_space
    rw [show (fixZero ∘ fixPipe) a = fixZero (fixPipe a) from rfl] at hac
    rw [hac]
    exact hw
  rw [← hac, show (fixZero ∘ fixPipe) a = fixZero (fixPipe a) from rfl, hfix.1]
  rw [← hac, show (fixZero ∘ fixPipe) a = fixZero (fixPipe a) from rfl, hfix.1] at hw
  exact collapseWS_space t a ha hw

theorem cleanStage_no_nl (t : Str) :
    ∀ c ∈ ((collapseWS t).map fixPipe).map fixZero, c ≠ '\n' := by
  intro c hc hnl
  have := cleanStage_space t c hc (by rw [hnl]; rfl)
  rw [hnl] at this
  exact absurd this (by decide)

theorem replaceNNAux_id :
    ∀ (fuel : Nat) (s : Str), (∀ c ∈ s, c ≠ '\n') → replaceNNAux fuel s = s := by
  intro fuel
  induction fuel with
  | zero => intro s h; rfl
  | succ f ih =>
    intro s h
    cases s with
    | nil => rfl
    | cons c rest =>
      have hc : ¬((c == '\n') = true) := by
        simp only [beq_iff_eq]
        exact h c (List.mem_cons_self c rest)
      simp only [replaceNNAux, if_neg hc]
      rw [ih rest (fun d hd => h d (List.mem_cons_of_mem c hd))]

theorem trimWS_subset {s : Str} : ∀ c ∈ trimWS s, c ∈ s := by
  intro c hc
  unfold trimWS at hc
  rw [List.mem_reverse] at hc
  have h1 : c ∈ (s.dropWhile isJsWs).reverse :=
    (List.dropWhile_sublist _).subset hc
  rw [List.mem_reverse] at h1
  exact (List.dropWhile_sublist _).subset h1

theorem cleanOCRText_space (t : Str) :
    ∀ c ∈ cleanOCRText t, isJsWs c = true → c = ' ' := by
  intro c hc hw
  unfold cleanOCRText replaceNN at hc
  rw [replaceNNAux_id _ _ (cleanStage_no_nl t)] at hc
  exact cleanStage_space t c (trimWS_subset c hc) hw

theorem cleanOCRText_no_nl (t : Str) : ∀ c ∈ cleanOCRText t, c ≠ '\n' := by
  intro c hc hnl
  have := cleanOCRText_space t c hc (by rw [hnl]; rfl)
  rw [hnl] at this
  exact absurd this (by decide)

theorem splitOnNl_no_nl {s : Str} (h : ∀ c ∈ s, c ≠ '\n') : splitOnNl s = [s] := by
  induction s with
  | nil => rfl
  | cons c rest ih =>
    have hc : ¬((c == '\n') = true) := by
      simp only [beq_iff_eq]
      exact h c (List.mem_cons_self c rest)
    simp only [splitOnNl, if_neg hc]
    rw [ih (fun d hd => h d (List.mem_cons_of_mem c hd))]

/-- C3: contrary to the claim, no line-break structure survives
normalization — `cleanOCRText`'s first substitution (`/\s+/g → ' '`)
also consumes every newline, so for EVERY raw OCR input the
line-sequence view `lines` contains at most one element, never several. -/
theorem cleaned_lines_at_most_one (t : Str) :
    (linesOf (cleanOCRText t)).length ≤ 1 := by
  unfold linesOf
  rw [splitOnNl_no_nl (cleanOCRText_no_nl t)]
  calc (([cleanOCRText t].map trimWS).filter (fun l => decide (2 < l.length))).length
      ≤ ([cleanOCRText t].map trimWS).length := List.length_filter_le _ _
    _ = 1 := by simp

/-!
## C8 and C9: extracted identifier shapes
-/

theorem extract_ok_fields {text : Str} {d : ExtractedData}
    (h : extractDataFromText text = Except.ok d) :
    d.idNumber = extractIdNumber (cleanOCRText text) ∧
    d.phoneNumber = extractPhone (cleanOCRText text) ∧
    d.name = (match extractNameFromLines (linesOf (cleanOCRText text)) with
              | some n => some n
              | none => extractNameFallback (fullTextOf (cleanOCRText text))) := by
  simp only [extractDataFromText] at h
  split at h
  · exact Except.noConfusion h
  · have hd := Except.ok.inj h
    subst hd
    exact ⟨rfl, rfl, rfl⟩

/-- C8: whenever extraction returns an ID number, it is a string of
exactly 12 decimal digits (internal spaces having been stripped); the
grouped 4-4-4 pattern is tried before the bare 12-digit one by
construction of `extractIdNumber`. -/
theorem extract_idNumber_twelve_digits (text : Str) (d : ExtractedData) (s : Str)
    (hok : extractDataFromText text = Except.ok d) (hid : d.idNumber = some s) :
    s.length = 12 ∧ s.all Char.isDigit = true := by
  rw [(extract_ok_fields hok).1] at hid
  unfold extractIdNumber at hid
  have hguard := List.find?_some hid
  simpa [aadhaarOk] using hguard

/-- Witness for C8: a grouped 12-digit number in the OCR text (together
with a date, which the extractor needs to avoid its own crash) is
returned with the spaces stripped. -/
theorem extract_idNumber_twelve_digits_witness :
    (strL "123456789012").length = 12 ∧ (strL "123456789012").all Char.isDigit = true :=
  extract_idNumber_twelve_digits (strL "1234 5678 9012 01/01/1990")
    ⟨none, some (strL "01/01/1990"), some (strL "123456789012"), none⟩
    (strL "123456789012") rfl rfl

/-- C9: whenever extraction returns a phone number, it is exactly 10
digits and its first digit is between 6 and 9. -/
theorem extract_phone_shape (text : Str) (d : ExtractedData) (s : Str)
    (hok : extractDataFromText text = Except.ok d) (hph : d.phoneNumber = some s) :
    s.length = 10 ∧ s.all Char.isDigit = true ∧
      ∃ c rest, s = c :: rest ∧ '6' ≤ c ∧ c ≤ '9' := by
  rw [(extract_ok_fields hok).2.1] at hph
  unfold extractPhone at hph
  have hguard := List.find?_some hph
  cases s with
  | nil => exact absurd hguard (by decide)
  | cons c rest =>
    have hg : ((c :: rest).length == 10
        && ((isSixToNine c && rest.length == 9) && rest.all Char.isDigit)) = true := hguard
    rw [Bool.and_eq_true, Bool.and_eq_true, Bool.and_eq_true] at hg
    obtain ⟨hlen, ⟨hsix, hrl⟩, hall⟩ := hg
    rw [isSixToNine, Bool.and_eq_true] at hsix
    obtain ⟨d6, d9⟩ := hsix
    have h6 : '6' ≤ c := of_decide_eq_true d6
    have h9 : c ≤ '9' := of_decide_eq_true d9
    have hcd : c.isDigit = true := by
      simp only [Char.isDigit, Bool.and_eq_true, decide_eq_true_eq]
      exact ⟨le_trans (show ('0' : Char) ≤ '6' from by decide) h6, h9⟩
    refine ⟨beq_iff_eq.mp hlen, ?_, c, rest, rfl, h6, h9⟩
    simp [hcd, hall]

/-- Witness for C9: a bare valid mobile number in the OCR text (plus a
date to keep the extractor from crashing) is returned verbatim. -/
theorem extract_phone_shape_witness :
    (strL "9876543210").length = 10 ∧ (strL "9876543210").all Char.isDigit = true ∧
      ∃ c rest, strL "9876543210" = c :: rest ∧ '6' ≤ c ∧ c ≤ '9' :=
  extract_phone_shape (strL "9876543210 01/01/1990")
    ⟨none, some (strL "01/01/1990"), none, some (strL "9876543210")⟩
    (strL "9876543210") rfl rfl

/-!
## C10: shape of extracted names
-/

theorem upper_not_digit {c : Char} (h : c.isUpper = true) : c.isDigit = false := by
  by_contra hd
  rw [Bool.not_eq_false] at hd
  simp only [Char.isUpper, ge_iff_le, Bool.and_eq_true, decide_eq_true_eq] at h
  simp only [Char.isDigit, ge_iff_le, Bool.and_eq_true, decide_eq_true_eq] at hd
  exact absurd (UInt32.le_trans h.1 hd.2) (by decide)

theorem lower_not_digit {c : Char} (h : c.isLower = true) : c.isDigit = false := by
  by_contra hd
  rw [Bool.not_eq_false] at hd
  simp only [Char.isLower, ge_iff_le, Bool.and_eq_true, decide_eq_true_eq] at h
  simp only [Char.isDigit, ge_iff_le, Bool.and_eq_true, decide_eq_true_eq] at hd
  exact absurd (UInt32.le_trans h.1 hd.2) (by decide)

theorem isNameWord_build {u : Char} {low : Str} (hu : u.isUpper = true)
    (hl : low.all Char.isLower = true) (hn : 1 ≤ low.length) :
    isNameWord (u :: low) = true := by
  have hne : low.isEmpty = false := by
    cases low with
    | nil => exact absurd hn (by decide)
    | cons x t => rfl
  simp [isNameWord, hu, hl, hne]

theorem nameWord_no_digit {w : Str} (h : isNameWord w = true) :
    ∀ c ∈ w, c.isDigit = false := by
  intro c hc
  cases w with
  | nil => exact absurd h (by decide)
  | cons u low =>
    have hg : (u.isUpper && !low.isEmpty && low.all Char.isLower) = true := h
    rw [Bool.and_eq_true, Bool.and_eq_true] at hg
    obtain ⟨⟨hu, _⟩, hl⟩ := hg
    rcases List.mem_cons.mp hc with h1 | h2
    · rw [h1]; exact upper_not_digit hu
    · exact lower_not_digit (List.all_eq_true.mp hl c h2)

theorem claimShape_no_digit {s : Str} (h : claimNameShape s) :
    s.all (fun c => !c.isDigit) = true := by
  obtain ⟨w, ws, hs, hw, hws, _, _⟩ := h
  rw [List.all_eq_true]
  intro c hc
  rw [Bool.not_eq_true']
  rw [hs, List.mem_append] at hc
  rcases hc with h1 | h2
  · exact nameWord_no_digit hw c h1
  · rw [List.mem_flatten] at h2
    obtain ⟨l, hl, hcl⟩ := h2
    rw [List.mem_map] at hl
    obtain ⟨v, hv, hvl⟩ := hl
    rw [← hvl] at hcl
    rcases List.mem_cons.mp hcl with hsp | hvm
    · rw [hsp]; decide
    · exact nameWord_no_digit (hws v hv) c hvm

theorem parseProperWord_spec {m : Nat} {s w r : Str}
    (h : parseProperWord m s = some (w, r)) :
    s = w ++ r ∧ ∃ u low, w = u :: low ∧ u.isUpper = true ∧
      low.all Char.isLower = true ∧ m ≤ low.length := by
  cases s with
  | nil => exact Option.noConfusion h
  | cons c rest =>
    simp only [parseProperWord] at h
    split at h
    · split at h
      · simp only [Option.some.injEq, Prod.mk.injEq] at h
        obtain ⟨hw, hr⟩ := h
        constructor
        · rw [← hw, ← hr, List.cons_append, List.takeWhile_append_dropWhile]
        · refine ⟨c, rest.takeWhile Char.isLower, hw.symm, by assumption, ?_, ?_⟩
          · rw [List.all_eq_true]
            intro x hx
            exact List.mem_takeWhile_imp hx
          · exact of_decide_eq_true (by assumption)
      · exact Option.noConfusion h
    · exact Option.noConfusion h

theorem parseTailWords_spec :
    ∀ (fuel : Nat) (s : Str) (ws : List Str), parseTailWords fuel s = some ws →
      (∀ c ∈ s, isJsWs c = true → c = ' ') →
      s = (ws.map (fun w => ' ' :: w)).flatten ∧ ∀ w ∈ ws, isNameWord w = true := by
  intro fuel
  induction fuel with
  | zero =>
    intro s ws h hsp
    cases s with
    | nil =>
      have hws : ws = [] := (Option.some.inj h).symm
      subst hws
      exact ⟨rfl, by intro w hw; exact absurd hw (List.not_mem_nil w)⟩
    | cons c rest => exact Option.noConfusion h
  | succ f ih =>
    intro s ws h hsp
    cases s with
    | nil =>
      have hws : ws = [] := (Option.some.inj h).symm
      subst hws
      exact ⟨rfl, by intro w hw; exact absurd hw (List.not_mem_nil w)⟩
    | cons c rest =>
      simp only [parseTailWords] at h
      split at h
      · cases hpw : parseProperWord 1 rest with
        | none => rw [hpw] at h; exact Option.noConfusion h
        | some pr =>
          obtain ⟨w, r⟩ := pr
          rw [hpw] at h
          rw [Option.map_eq_some'] at h
          obtain ⟨ws2, hws2, hcons⟩ := h
          obtain ⟨hrest, u, low, hwul, hu, hl, hm⟩ := parseProperWord_spec hpw
          have hrsub : ∀ x ∈ r, isJsWs x = true → x = ' ' := by
            intro x hx
            exact hsp x (List.mem_cons_of_mem c (hrest ▸ List.mem_append_right w hx))
          obtain ⟨hr, hws⟩ := ih r ws2 hws2 hrsub
          have hc : c = ' ' := hsp c (List.mem_cons_self c rest) (by assumption)
          subst hcons
          constructor
          · rw [List.map_cons, List.flatten_cons, hc, hrest, hr]
            simp
          · intro v hv
            rcases List.mem_cons.mp hv with h1 | h2
            · rw [h1, hwul]
              exact isNameWord_build hu hl hm
            · exact hws v h2
      · exact Option.noConfusion h

theorem testProperName_shape {s : Str} (h : testProperName s = true)
    (hsp : ∀ c ∈ s, isJsWs c = true → c = ' ') : claimNameShape s := by
  unfold testProperName at h
  cases hpw : parseProperWord 1 s with
  | none => rw [hpw] at h; exact Bool.noConfusion h
  | some pr =>
    obtain ⟨w, r⟩ := pr
    rw [hpw] at h
    have h2 : (match parseTailWords (List.length r) r with
        | some ws => decide (1 ≤ ws.length) && decide (ws.length ≤ 3)
        | none => false) = true := h
    cases htw : parseTailWords (List.length r) r with
    | none => rw [htw] at h2; exact Bool.noConfusion h2
    | some ws =>
      rw [htw, Bool.and_eq_true] at h2
      obtain ⟨h1, h3⟩ := h2
      obtain ⟨hsr, u, low, hwul, hu, hl, hm⟩ := parseProperWord_spec hpw
      have hrsub : ∀ x ∈ r, isJsWs x = true → x = ' ' := by
        intro x hx
        exact hsp x (hsr ▸ List.mem_append_right w hx)
      obtain ⟨hr, hws⟩ := parseTailWords_spec _ _ _ htw hrsub
      refine ⟨w, ws, by rw [hsr, hr], ?_, hws, of_decide_eq_true h1, of_decide_eq_true h3⟩
      rw [hwul]
      exact isNameWord_build hu hl hm

theorem tryThird_spec {m : Nat} {two r3 mt r : Str}
    (h : tryThird m two r3 = some (mt, r)) :
    (mt = two ∧ r = r3) ∨
    ∃ c2 w3, mt = two ++ c2 :: w3 ∧ isJsWs c2 = true ∧ properWordMin m w3 ∧
      r3 = c2 :: (w3 ++ r) := by
  unfold tryThird at h
  split at h
  · rename_i c2 r4
    split at h
    · rename_i hc2
      cases hw3 : parseProperWord m r4 with
      | some pr =>
        obtain ⟨w3, r5⟩ := pr
        rw [hw3] at h
        obtain ⟨hs3, hpw3⟩ := parseProperWord_spec hw3
        have h2 : (if boundaryAfter r5 then some (two ++ c2 :: w3, r5)
            else if boundaryAfter (c2 :: r4) then some (two, c2 :: r4)
            else none) = some (mt, r) := h
        clear h
        split at h2
        · simp only [Option.some.injEq, Prod.mk.injEq] at h2
          obtain ⟨hmt, hr⟩ := h2
          exact Or.inr ⟨c2, w3, hmt.symm, hc2, hpw3, by rw [hs3, hr]⟩
        · split at h2
          · simp only [Option.some.injEq, Prod.mk.injEq] at h2
            obtain ⟨hmt, hr⟩ := h2
            exact Or.inl ⟨hmt.symm, hr.symm⟩
          · exact Option.noConfusion h2
      | none =>
        rw [hw3] at h
        have h2 : (if boundaryAfter (c2 :: r4) then some (two, c2 :: r4) else none)
            = some (mt, r) := h
        clear h
        split at h2
        · simp only [Option.some.injEq, Prod.mk.injEq] at h2
          obtain ⟨hmt, hr⟩ := h2
          exact Or.inl ⟨hmt.symm, hr.symm⟩
        · exact Option.noConfusion h2
    · split at h
      · simp only [Option.some.injEq, Prod.mk.injEq] at h
        obtain ⟨hmt, hr⟩ := h
        exact Or.inl ⟨hmt.symm, hr.symm⟩
      · exact Option.noConfusion h
  · simp only [Option.some.injEq, Prod.mk.injEq] at h
    obtain ⟨hmt, hr⟩ := h
    exact Or.inl ⟨hmt.symm, hr.symm⟩

theorem tryPairAt_spec {m : Nat} {prev : Option Char} {s mt r : Str}
    (h : tryPairAt m prev s = some (mt, r)) :
    s = mt ++ r ∧
    ∃ w1 c1 w2 tail, mt = w1 ++ c1 :: (w2 ++ tail) ∧ isJsWs c1 = true ∧
      properWordMin m w1 ∧ properWordMin m w2 ∧
      (tail = [] ∨ ∃ c2 w3, tail = c2 :: w3 ∧ isJsWs c2 = true ∧ properWordMin m w3) := by
  unfold tryPairAt at h
  split at h
  · cases hw1 : parseProperWord m s with
    | none => rw [hw1] at h; exact Option.noConfusion h
    | some pr1 =>
      obtain ⟨w1, r1⟩ := pr1
      rw [hw1] at h
      obtain ⟨hs1, hpw1⟩ := parseProperWord_spec hw1
      cases r1 with
      | nil => exact Option.noConfusion h
      | cons c1 r2 =>
        have h2 : (if isJsWs c1 then
            match parseProperWord m r2 with
            | some (w2, r3) => tryThird m (w1 ++ c1 :: w2) r3
            | none => none
          else none) = some (mt, r) := h
        clear h
        split at h2
        · rename_i hc1
          cases hw2 : parseProperWord m r2 with
          | none => rw [hw2] at h2; exact Option.noConfusion h2
          | some pr2 =>
            obtain ⟨w2, r3⟩ := pr2
            rw [hw2] at h2
            obtain ⟨hs2, hpw2⟩ := parseProperWord_spec hw2
            rcases tryThird_spec h2 with ⟨hmt, hr⟩ | ⟨c2, w3, hmt, hc2, hpw3, hr3⟩
            · subst hmt
              subst hr
              constructor
              · rw [hs1, hs2]
                simp
              · exact ⟨w1, c1, w2, [], by simp, hc1, hpw1, hpw2, Or.inl rfl⟩
            · subst hmt
              constructor
              · rw [hs1, hs2, hr3]
                simp
              · exact ⟨w1, c1, w2, c2 :: w3, by simp, hc1, hpw1, hpw2,
                  Or.inr ⟨c2, w3, rfl, hc2, hpw3⟩⟩
        · exact Option.noConfusion h2
  · exact Option.noConfusion h

theorem parseWordCI_spec {s w r : Str} (h : parseWordCI s = some (w, r)) :
    s = w ++ r := by
  cases s with
  | nil => exact Option.noConfusion h
  | cons c rest =>
    simp only [parseWordCI] at h
    split at h
    · split at h
      · exact Option.noConfusion h
      · simp only [Option.some.injEq, Prod.mk.injEq] at h
        obtain ⟨hw, hr⟩ := h
        rw [← hw, ← hr, List.cons_append, List.takeWhile_append_dropWhile]
    · exact Option.noConfusion h

theorem parseExtrasCI_spec :
    ∀ (k : Nat) (s : Str), s = (parseExtrasCI k s).1 ++ (parseExtrasCI k s).2 := by
  intro k
  induction k with
  | zero => intro s; rfl
  | succ k2 ih =>
    intro s
    cases s with
    | nil => rfl
    | cons c rest =>
      simp only [parseExtrasCI]
      split
      · cases hw : parseWordCI rest with
        | none => simp
        | some pr =>
          obtain ⟨w, r⟩ := pr
          simp only
          rw [List.cons_append, List.append_assoc]
          rw [parseWordCI_spec hw, ← ih r]
      · simp

theorem stripNameKey_sub {s r : Str} (h : stripNameKey s = some r) :
    ∀ c ∈ r, c ∈ s := by
  intro c hc
  cases s with
  | nil => exact Option.noConfusion h
  | cons c1 s1 =>
    cases s1 with
    | nil => exact Option.noConfusion h
    | cons c2 s2 =>
      cases s2 with
      | nil => exact Option.noConfusion h
      | cons c3 s3 =>
        cases s3 with
        | nil => exact Option.noConfusion h
        | cons c4 s4 =>
          have hr : r = s4 := by
            simp only [stripNameKey] at h
            split at h
            · exact (Option.some.inj h).symm
            · split at h
              · exact (Option.some.inj h).symm
              · exact Option.noConfusion h
          subst hr
          simp [hc]

theorem dropWhile_sub {p : Char → Bool} {s : Str} : ∀ c ∈ s.dropWhile p, c ∈ s :=
  fun _ hc => (List.dropWhile_sublist _).subset hc

theorem tryNameKeyAt_mem {prev : Option Char} {s mt r : Str}
    (h : tryNameKeyAt prev s = some (mt, r)) :
    (∀ c ∈ mt, c ∈ s) ∧ (∀ c ∈ r, c ∈ s) := by
  unfold tryNameKeyAt at h
  cases hk : stripNameKey s with
  | none => rw [hk] at h; exact Option.noConfusion h
  | some r1 =>
    rw [hk] at h
    have h2 : (if (r1.takeWhile (fun c => isJsWs c || c == ':')).isEmpty then none
        else
          match parseWordCI (r1.dropWhile (fun c => isJsWs c || c == ':')) with
          | some (w1, r3) =>
            if (parseExtrasCI 3 r3).1.isEmpty then none
            else some (w1 ++ (parseExtrasCI 3 r3).1, (parseExtrasCI 3 r3).2)
          | none => none) = some (mt, r) := h
    clear h
    split at h2
    · exact Option.noConfusion h2
    · cases hw : parseWordCI (r1.dropWhile (fun c => isJsWs c || c == ':')) with
      | none => rw [hw] at h2; exact Option.noConfusion h2
      | some pr =>
        obtain ⟨w1, r3⟩ := pr
        rw [hw] at h2
        have h3 : (if (parseExtrasCI 3 r3).1.isEmpty then none
            else some (w1 ++ (parseExtrasCI 3 r3).1, (parseExtrasCI 3 r3).2))
            = some (mt, r) := h2
        clear h2
        split at h3
        · exact Option.noConfusion h3
        · simp only [Option.some.injEq, Prod.mk.injEq] at h3
          obtain ⟨hmt, hr⟩ := h3
          have hsub3 : ∀ c ∈ r3, c ∈ s := by
            intro c hc
            apply stripNameKey_sub hk
            apply dropWhile_sub
            rw [parseWordCI_spec hw]
            exact List.mem_append_right w1 hc
          constructor
          · intro c hc
            rw [← hmt, List.mem_append] at hc
            rcases hc with hc1 | hc2
            · apply stripNameKey_sub hk
              apply dropWhile_sub
              rw [parseWordCI_spec hw]
              exact List.mem_append_left _ hc1
            · apply hsub3
              rw [parseExtrasCI_spec 3 r3]
              exact List.mem_append_left _ hc2
          · intro c hc
            apply hsub3
            rw [parseExtrasCI_spec 3 r3]
            rw [← hr] at hc
            exact List.mem_append_right _ hc

theorem scanAll_sub {tryAt : Option Char → Str → Option (Str × Str)}
    (hsub : ∀ prev s mt r, tryAt prev s = some (mt, r) →
      (∀ c ∈ mt, c ∈ s) ∧ (∀ c ∈ r, c ∈ s)) :
    ∀ (fuel : Nat) (prev : Option Char) (s : Str),
      ∀ mt ∈ scanAll tryAt fuel prev s, ∀ c ∈ mt, c ∈ s := by
  intro fuel
  induction fuel with
  | zero =>
    intro prev s mt hmt
    simp [scanAll] at hmt
  | succ f ih =>
    intro prev s mt hmt
    cases s with
    | nil => simp [scanAll] at hmt
    | cons a rest =>
      rw [scanAll] at hmt
      cases htry : tryAt prev (a :: rest) with
      | some pr =>
        obtain ⟨m0, r0⟩ := pr
        rw [htry] at hmt
        rcases List.mem_cons.mp hmt with h1 | h2
        · subst h1
          exact (hsub _ _ _ _ htry).1
        · intro c hc
          exact (hsub _ _ _ _ htry).2 c (ih _ r0 mt h2 c hc)
      | none =>
        rw [htry] at hmt
        intro c hc
        exact List.mem_cons_of_mem a (ih _ rest mt hmt c hc)

theorem scanAll_ex {tryAt : Option Char → Str → Option (Str × Str)} :
    ∀ (fuel : Nat) (prev : Option Char) (s : Str), ∀ mt ∈ scanAll tryAt fuel prev s,
      ∃ prev2 s2 r2, tryAt prev2 s2 = some (mt, r2) := by
  intro fuel
  induction fuel with
  | zero =>
    intro prev s mt hmt
    simp [scanAll] at hmt
  | succ f ih =>
    intro prev s mt hmt
    cases s with
    | nil => simp [scanAll] at hmt
    | cons a rest =>
      rw [scanAll] at hmt
      cases htry : tryAt prev (a :: rest) with
      | some pr =>
        obtain ⟨m0, r0⟩ := pr
        rw [htry] at hmt
        rcases List.mem_cons.mp hmt with h1 | h2
        · subst h1
          exact ⟨prev, a :: rest, r0, htry⟩
        · exact ih _ r0 mt h2
      | none =>
        rw [htry] at hmt
        exact ih _ rest mt hmt

theorem splitOnNl_sub {s : Str} : ∀ l ∈ splitOnNl s, ∀ c ∈ l, c ∈ s := by
  induction s with
  | nil =>
    intro l hl c hc
    simp only [splitOnNl, List.mem_singleton] at hl
    subst hl
    exact absurd hc (List.not_mem_nil c)
  | cons a rest ih =>
    intro l hl c hc
    by_cases ha : (a == '\n') = true
    · rw [splitOnNl, if_pos ha] at hl
      rcases List.mem_cons.mp hl with h1 | h2
      · subst h1
        exact absurd hc (List.not_mem_nil c)
      · exact List.mem_cons_of_mem a (ih l h2 c hc)
    · rw [splitOnNl, if_neg ha] at hl
      cases hsp : splitOnNl rest with
      | nil =>
        rw [hsp] at hl
        simp only [List.mem_singleton] at hl
        subst hl
        rcases List.mem_cons.mp hc with h1 | h2
        · rw [h1]; exact List.mem_cons_self a rest
        · exact absurd h2 (List.not_mem_nil c)
      | cons h0 t0 =>
        rw [hsp] at hl
        rcases List.mem_cons.mp hl with h1 | h2
        · subst h1
          rcases List.mem_cons.mp hc with h1 | h2
          · rw [h1]; exact List.mem_cons_self a rest
          · refine List.mem_cons_of_mem a (ih h0 ?_ c h2)
            rw [hsp]
            exact List.mem_cons_self h0 t0
        · refine List.mem_cons_of_mem a (ih l ?_ c hc)
          rw [hsp]
          exact List.mem_cons_of_mem h0 h2

theorem linesOf_sub {s : Str} : ∀ l ∈ linesOf s, ∀ c ∈ l, c ∈ s := by
  intro l hl c hc
  unfold linesOf at hl
  have hl2 := List.mem_of_mem_filter hl
  rw [List.mem_map] at hl2
  obtain ⟨l0, hl0, hml⟩ := hl2
  subst hml
  exact splitOnNl_sub l0 hl0 c (trimWS_subset c hc)

theorem fullTextOf_space {s : Str} (hsp : ∀ c ∈ s, isJsWs c = true → c = ' ') :
    ∀ c ∈ fullTextOf s, isJsWs c = true → c = ' ' := by
  intro c hc hw
  rw [fullTextOf, List.mem_map] at hc
  obtain ⟨a, ha, hac⟩ := hc
  by_cases hnl : (a == '\n') = true
  · rw [← hac, if_pos hnl]
  · rw [← hac, if_neg hnl]
    rw [← hac, if_neg hnl] at hw
    exact hsp a ha hw

theorem head?_mem {α : Type} {l : List α} {a : α} (h : l.head? = some a) : a ∈ l := by
  cases l with
  | nil => exact Option.noConfusion h
  | cons x t =>
    rw [List.head?_cons] at h
    rw [Option.some.inj h]
    exact List.mem_cons_self a t

theorem extractNameFromLines_ex : ∀ (ls : List Str) (n : Str),
    extractNameFromLines ls = some n → ∃ l ∈ ls, extractNameFromLine l = some n := by
  intro ls
  induction ls with
  | nil => intro n h; exact Option.noConfusion h
  | cons l ls2 ih =>
    intro n h
    rw [extractNameFromLines] at h
    cases hl : extractNameFromLine l with
    | some n2 =>
      rw [hl] at h
      exact ⟨l, List.mem_cons_self l ls2, by rw [hl, Option.some.inj h]⟩
    | none =>
      rw [hl] at h
      obtain ⟨l2, hmem, h2⟩ := ih n h
      exact ⟨l2, List.mem_cons_of_mem l hmem, h2⟩

theorem lineNameCandidates_sub {line : Str} :
    ∀ cand ∈ lineNameCandidates line, ∀ c ∈ cand, c ∈ line := by
  intro cand hcand
  unfold lineNameCandidates at hcand
  rw [List.mem_filterMap] at hcand
  obtain ⟨o, ho, hoc⟩ := hcand
  rw [id] at hoc
  subst hoc
  rcases List.mem_cons.mp ho with h1 | h2
  · split at h1
    · rw [Option.some.inj h1]
      exact fun c hc => hc
    · exact Option.noConfusion h1
  · rcases List.mem_cons.mp h2 with h3 | h4
    · intro c hc
      refine scanAll_sub (fun prev s mt r h => tryNameKeyAt_mem h) _ none line cand
        (head?_mem h3.symm) c hc
    · rw [List.mem_singleton] at h4
      intro c hc
      refine scanAll_sub ?_ _ none line cand (head?_mem h4.symm) c hc
      intro prev s mt r h
      obtain ⟨hs, _⟩ := tryPairAt_spec h
      subst hs
      exact ⟨fun c hc => List.mem_append_left _ hc, fun c hc => List.mem_append_right _ hc⟩

theorem tryPair_claimShape {m : Nat} (hm : 1 ≤ m) {prev : Option Char} {s mt r : Str}
    (h : tryPairAt m prev s = some (mt, r))
    (hsp : ∀ c ∈ mt, isJsWs c = true → c = ' ') :
    claimNameShape mt := by
  obtain ⟨hs, w1, c1, w2, tail, hmt, hc1, hpw1, hpw2, htail⟩ := tryPairAt_spec h
  have hword : ∀ w : Str, properWordMin m w → isNameWord w = true := by
    intro w hw
    obtain ⟨u, low, hwul, hu, hl, hml⟩ := hw
    rw [hwul]
    exact isNameWord_build hu hl (le_trans hm hml)
  have hc1m : c1 ∈ mt := by
    rw [hmt]
    exact List.mem_append_right _ (List.mem_cons_self c1 _)
  have hc1sp : c1 = ' ' := hsp c1 hc1m hc1
  rcases htail with ht | ⟨c2, w3, ht, hc2, hpw3⟩
  · subst ht
    refine ⟨w1, [w2], ?_, hword w1 hpw1, ?_, by simp, by simp⟩
    · rw [hmt, hc1sp]
      simp
    · intro v hv
      rw [List.mem_singleton] at hv
      rw [hv]
      exact hword w2 hpw2
  · subst ht
    have hc2m : c2 ∈ mt := by
      rw [hmt]
      exact List.mem_append_right _ (List.mem_cons_of_mem c1
        (List.mem_append_right _ (List.mem_cons_self c2 _)))
    have hc2sp : c2 = ' ' := hsp c2 hc2m hc2
    refine ⟨w1, [w2, w3], ?_, hword w1 hpw1, ?_, by simp, by simp⟩
    · rw [hmt, hc1sp, hc2sp]
      simp
    · intro v hv
      rcases List.mem_cons.mp hv with h1 | h2
      · rw [h1]
        exact hword w2 hpw2
      · rw [List.mem_singleton] at h2
        rw [h2]
        exact hword w3 hpw3

/-- C10: whenever extraction returns a name, it consists of 2 to 4
space-separated words, each an uppercase letter followed by at least one
lowercase letter (hence the name contains no digits and no punctuation),
and its total length is at most 35; the line-based pass guarantees this
through its validation regex and the full-text fallback through its
match pattern. -/
theorem extract_name_shape (text : Str) (d : ExtractedData) (nm : Str)
    (hok : extractDataFromText text = Except.ok d) (hnm : d.name = some nm) :
    claimNameShape nm ∧ nm.length ≤ 35 ∧ nm.all (fun c => !c.isDigit) = true := by
  have hname := (extract_ok_fields hok).2.2
  rw [hname] at hnm
  have hclean := cleanOCRText_space text
  have main : claimNameShape nm ∧ nm.length ≤ 35 := by
    cases hlines : extractNameFromLines (linesOf (cleanOCRText text)) with
    | some n =>
      rw [hlines] at hnm
      have hn : n = nm := Option.some.inj hnm
      subst hn
      obtain ⟨l, hlmem, hline⟩ := extractNameFromLines_ex _ _ hlines
      unfold extractNameFromLine at hline
      split at hline
      · exact Option.noConfusion hline
      · split at hline
        · exact Option.noConfusion hline
        · split at hline
          · exact Option.noConfusion hline
          · have hguard := List.find?_some hline
            have hmem := List.mem_of_find?_eq_some hline
            rw [List.mem_map] at hmem
            obtain ⟨cand, hcand, htrim⟩ := hmem
            rw [nameOk, Bool.and_eq_true, Bool.and_eq_true, Bool.and_eq_true] at hguard
            obtain ⟨⟨⟨h4, h35⟩, htest⟩, _⟩ := hguard
            have hnsp : ∀ c ∈ n, isJsWs c = true → c = ' ' := by
              intro c hc hw
              apply hclean c _ hw
              apply linesOf_sub l hlmem
              apply lineNameCandidates_sub cand hcand
              rw [← htrim] at hc
              exact trimWS_subset c hc
            exact ⟨testProperName_shape htest hnsp, of_decide_eq_true h35⟩
    | none =>
      rw [hlines] at hnm
      unfold extractNameFallback at hnm
      have hguard := List.find?_some hnm
      have hmem := List.mem_of_find?_eq_some hnm
      rw [fallbackNameOk, Bool.and_eq_true, Bool.and_eq_true] at hguard
      obtain ⟨⟨_, h4⟩, h35⟩ := hguard
      have hnsp : ∀ c ∈ nm, isJsWs c = true → c = ' ' := by
        intro c hc hw
        refine fullTextOf_space hclean c ?_ hw
        refine scanAll_sub ?_ _ none _ nm hmem c hc
        intro prev s2 mt r2 h2
        obtain ⟨hs2, _⟩ := tryPairAt_spec h2
        subst hs2
        exact ⟨fun c hc => List.mem_append_left _ hc,
          fun c hc => List.mem_append_right _ hc⟩
      obtain ⟨prev2, s2, r2, htry⟩ := scanAll_ex _ none _ nm hmem
      exact ⟨tryPair_claimShape (by decide) htry hnsp, of_decide_eq_true h35⟩
  exact ⟨main.1, main.2, claimShape_no_digit main.1⟩

/-- Witness for C10: OCR text containing a proper-case name (and a date
to keep the extractor from crashing) yields the name via the full-text
fallback, and the shape predicates hold of it. -/
theorem extract_name_shape_witness :
    claimNameShape (strL "Ravi Kumar") ∧ (strL "Ravi Kumar").length ≤ 35 ∧
      (strL "Ravi Kumar").all (fun c => !c.isDigit) = true :=
  extract_name_shape (strL "Ravi Kumar 01/01/1990")
    ⟨some (strL "Ravi Kumar"), some (strL "01/01/1990"), none, none⟩
    (strL "Ravi Kumar") rfl rfl
